import Mathlib

/-!
# Verification of the Pi Control Center streaming and timelapse core

Shallow embedding of `pi_discovery/demo/server.py`, restricted to the parts
the specification calls the core:

* the MJPEG frame demuxer inside `cam_stream.gen` (lines 123-137): a byte
  buffer fed by `p.stdout.read(4096)` chunks, scanned with `bytes.find` for
  the JPEG start marker `0xFFD8` and end marker `0xFFD9`;
* the timelapse worker and its HTTP handlers `timelapse_start`,
  `timelapse_stop_route`, `timelapse_status` (lines 313-369), whose shared
  state is the pair of module globals `timelapse_thread` / `timelapse_stop`.

Bytes are modelled as natural numbers (each `< 256` in every input of
interest; the code only compares bytes for equality, so no arithmetic on
them occurs).  Python `bytes.find` returning `-1` is modelled as
`Option Nat`.
-/

/-- JPEG start-of-image marker `b'\xff\xd8'` (the literal at line 133). -/
def SOI : List Nat := [255, 216]

/-- JPEG end-of-image marker `b'\xff\xd9'` (the literal at line 133). -/
def EOI : List Nat := [255, 217]

/-- `begins pat l` holds when `pat` is an initial segment of `l`. -/
def begins : List Nat → List Nat → Bool
  | [], _ => true
  | _ :: _, [] => false
  | a :: as, b :: bs => a == b && begins as bs

/-- Model of Python `bytes.find(pat)`: index of the first occurrence of
`pat` in the buffer, `none` for Python's `-1`. -/
def findSub (pat : List Nat) : List Nat → Option Nat
  | [] => if begins pat [] then some 0 else none
  | b :: t => if begins pat (b :: t) then some 0 else (findSub pat t).map (· + 1)

/-- One iteration of the `cam_stream.gen` loop body after a successful read
(lines 132-136): append the chunk, compute `s = buf.find(b'\xff\xd8')` and
`e = buf.find(b'\xff\xd9')`, and if `s != -1 and e != -1 and e > s` emit
`buf[s:e+2]` and keep `buf[e+2:]`; otherwise keep the whole buffer and emit
nothing.  Returns the new buffer and the (zero or one) emitted frames. -/
def demuxStep (buf chunk : List Nat) : List Nat × List (List Nat) :=
  match findSub SOI (buf ++ chunk), findSub EOI (buf ++ chunk) with
  | some s, some e =>
    if s < e then
      ((buf ++ chunk).drop (e + 2), [((buf ++ chunk).drop s).take (e + 2 - s)])
    else (buf ++ chunk, [])
  | _, _ => (buf ++ chunk, [])

/-- The full `while True` read loop of `cam_stream.gen` (lines 129-136) over
a list of chunk values returned by successive `p.stdout.read(4096)` calls:
an empty chunk means end of stream (`if not c: break`).  Returns the final
buffer and the concatenation of all emitted frames, in order. -/
def demuxProc : List Nat → List (List Nat) → List Nat × List (List Nat)
  | buf, [] => (buf, [])
  | buf, c :: cs =>
    if c.isEmpty then (buf, [])
    else ((demuxProc (demuxStep buf c).1 cs).1,
          (demuxStep buf c).2 ++ (demuxProc (demuxStep buf c).1 cs).2)

/-- Frames emitted by `cam_stream.gen` for a given sequence of read results,
starting from the empty buffer `buf = b''` (line 127). -/
def demuxRun (chunks : List (List Nat)) : List (List Nat) :=
  (demuxProc [] chunks).2

/-- A stream split into one-byte chunks. -/
def byteChunks (l : List Nat) : List (List Nat) :=
  l.map (fun b => [b])

/-- The body of a JPEG frame is marker-free: neither `0xFFD8` nor `0xFFD9`
occurs in it. -/
def markerFree (l : List Nat) : Bool :=
  (findSub SOI l).isNone && (findSub EOI l).isNone

/-- A well-formed JPEG frame with the given body: start marker, body, end
marker. -/
def frameOf (body : List Nat) : List Nat :=
  SOI ++ body ++ EOI

theorem begins_iff_append (pat l : List Nat) :
    begins pat l = true ↔ ∃ t, l = pat ++ t := by
  induction pat generalizing l with
  | nil => simp [begins]
  | cons a as ih =>
    cases l with
    | nil => simp [begins]
    | cons b bs =>
      simp only [begins, Bool.and_eq_true, beq_iff_eq, ih, List.cons_append,
        List.cons.injEq]
      constructor
      · rintro ⟨rfl, t, rfl⟩; exact ⟨t, rfl, rfl⟩
      · rintro ⟨t, rfl, rfl⟩; exact ⟨rfl, t, rfl⟩

theorem begins_append_of_begins (pat l r : List Nat) (h : begins pat l = true) :
    begins pat (l ++ r) = true := by
  rw [begins_iff_append] at h ⊢
  obtain ⟨t, rfl⟩ := h
  exact ⟨t ++ r, by simp⟩

theorem findSub_eq_none_iff (pat l : List Nat) :
    findSub pat l = none ↔ ∀ i, begins pat (l.drop i) = false := by
  induction l with
  | nil =>
    constructor
    · intro hn i
      simp only [List.drop_nil]
      by_contra hb
      simp only [Bool.not_eq_false] at hb
      simp [findSub, hb] at hn
    · intro hall
      have h0 := hall 0
      simp only [List.drop_nil] at h0
      simp [findSub, h0]
  | cons b t ih =>
    constructor
    · intro hn i
      by_cases h : begins pat (b :: t) = true
      · simp [findSub, h] at hn
      · simp only [Bool.not_eq_true] at h
        simp [findSub, h] at hn
        cases i with
        | zero => simpa using h
        | succ j => simpa using (ih.mp hn) j
    · intro hall
      have h0 := hall 0
      simp only [List.drop_zero] at h0
      have ht : findSub pat t = none := ih.mpr (fun j => by simpa using hall (j + 1))
      simp [findSub, h0, ht]

theorem findSub_none_of_append (pat l r : List Nat)
    (h : findSub pat (l ++ r) = none) : findSub pat l = none := by
  rw [findSub_eq_none_iff] at h ⊢
  intro i
  by_contra hb
  simp only [Bool.not_eq_false] at hb
  have : begins pat ((l ++ r).drop i) = true := by
    rw [List.drop_append_eq_append_drop]
    exact begins_append_of_begins _ _ _ hb
  rw [h i] at this
  exact absurd this (by simp)

theorem findSub_eq_some_iff (pat l : List Nat) (i : Nat) :
    findSub pat l = some i ↔
      begins pat (l.drop i) = true ∧ ∀ j, j < i → begins pat (l.drop j) = false := by
  induction l generalizing i with
  | nil =>
    by_cases h : begins pat [] = true
    · constructor
      · intro hs
        have hi : i = 0 := by
          simp only [findSub, h, if_true, Option.some.injEq] at hs
          omega
        subst hi
        exact ⟨by simpa using h, by omega⟩
      · rintro ⟨h1, h2⟩
        have hi : i = 0 := by
          by_contra hne
          have := h2 0 (Nat.pos_of_ne_zero hne)
          simp only [List.drop_nil] at this
          rw [this] at h
          exact absurd h (by simp)
        subst hi
        simp [findSub, h]
    · simp only [Bool.not_eq_true] at h
      constructor
      · intro hs
        simp [findSub, h] at hs
      · rintro ⟨h1, -⟩
        simp only [List.drop_nil] at h1
        rw [h1] at h
        exact absurd h (by simp)
  | cons b t ih =>
    by_cases h : begins pat (b :: t) = true
    · constructor
      · intro hs
        have hi : i = 0 := by
          simp only [findSub, h, if_true, Option.some.injEq] at hs
          omega
        subst hi
        exact ⟨by simpa using h, by omega⟩
      · rintro ⟨h1, h2⟩
        have hi : i = 0 := by
          by_contra hne
          have := h2 0 (Nat.pos_of_ne_zero hne)
          simp only [List.drop_zero] at this
          rw [this] at h
          exact absurd h (by simp)
        subst hi
        simp [findSub, h]
    · simp only [Bool.not_eq_true] at h
      cases i with
      | zero =>
        constructor
        · intro hs
          simp only [findSub, h] at hs
          obtain ⟨j, -, hj⟩ := Option.map_eq_some'.mp hs
          omega
        · rintro ⟨h1, -⟩
          simp only [List.drop_zero] at h1
          rw [h1] at h
          exact absurd h (by simp)
      | succ k =>
        constructor
        · intro hs
          simp only [findSub, h] at hs
          obtain ⟨j, hj, hjk⟩ := Option.map_eq_some'.mp hs
          have hjk' : j = k := by omega
          rw [hjk'] at hj
          obtain ⟨h1, h2⟩ := (ih k).mp hj
          refine ⟨by simpa using h1, ?_⟩
          intro j hjlt
          cases j with
          | zero => simpa using h
          | succ m =>
            simp only [List.drop_succ_cons]
            exact h2 m (by omega)
        · rintro ⟨h1, h2⟩
          have hk : findSub pat t = some k := by
            rw [ih]
            refine ⟨by simpa using h1, ?_⟩
            intro j hjlt
            have := h2 (j + 1) (by omega)
            simpa using this
          simp [findSub, h, hk]

theorem findSub_pair_append_left (a b : Nat) (u v : List Nat)
    (hu : findSub [a, b] u = none)
    (hstr : ¬(u.getLast? = some a ∧ v.head? = some b)) :
    findSub [a, b] (u ++ v) = (findSub [a, b] v).map (· + u.length) := by
  induction u with
  | nil =>
    cases hfv : findSub [a, b] v <;> simp [hfv]
  | cons x u' ih =>
    have hb : begins [a, b] (x :: u') = false := by
      by_contra hc
      simp only [Bool.not_eq_false] at hc
      simp [findSub, hc] at hu
    have hu' : findSub [a, b] u' = none := by
      simp [findSub, hb] at hu
      exact hu
    have hbv : begins [a, b] (x :: (u' ++ v)) = false := by
      cases u' with
      | nil =>
        cases v with
        | nil => simp [begins]
        | cons h t =>
          by_contra hc
          simp only [Bool.not_eq_false] at hc
          simp only [List.nil_append, begins, Bool.and_eq_true, beq_iff_eq] at hc
          refine hstr ⟨?_, ?_⟩
          · rw [hc.1]; simp
          · rw [hc.2.1]; simp
      | cons y u'' =>
        have h1 : ((a == x) && (b == y)) = false := by simpa [begins] using hb
        simpa [begins] using h1
    have hstr' : ¬(u'.getLast? = some a ∧ v.head? = some b) := by
      cases u' with
      | nil => simp
      | cons y u'' =>
        intro hcon
        refine hstr ⟨?_, hcon.2⟩
        rw [List.getLast?_cons_cons]
        exact hcon.1
    have hunf : findSub [a, b] (x :: (u' ++ v)) =
        if begins [a, b] (x :: (u' ++ v)) = true then some 0
        else (findSub [a, b] (u' ++ v)).map (· + 1) := rfl
    rw [List.cons_append, hunf, if_neg (by simp [hbv]), ih hu' hstr']
    cases findSub [a, b] v <;> simp [Nat.add_assoc]

theorem findSub_EOI_body_append (body rest : List Nat)
    (hb : findSub EOI body = none) :
    findSub EOI (body ++ (EOI ++ rest)) = some body.length := by
  have hstr : ¬(body.getLast? = some 255 ∧ (EOI ++ rest).head? = some 217) := by
    rintro ⟨-, hh⟩
    simp [EOI] at hh
  have hfirst : findSub [255, 217] ([255, 217] ++ rest) = some 0 := by
    simp [findSub, begins]
  have h := findSub_pair_append_left 255 217 body (EOI ++ rest)
    (by simpa [EOI] using hb) hstr
  simp only [EOI] at h ⊢
  rw [h, hfirst]
  simp

theorem findSub_EOI_SOI_cons (w : List Nat) :
    findSub EOI (SOI ++ w) = (findSub EOI w).map (· + 2) := by
  have hu : findSub [255, 217] [255, 216] = none := by decide
  have hstr : ¬(([255, 216] : List Nat).getLast? = some 255 ∧ w.head? = some 217) := by
    rintro ⟨hh, -⟩
    simp at hh
  have h := findSub_pair_append_left 255 217 [255, 216] w hu hstr
  simp only [SOI, EOI]
  simpa using h

theorem findSub_SOI_frame_start (g w : List Nat) (hg : findSub SOI g = none) :
    findSub SOI (g ++ (SOI ++ w)) = some g.length := by
  have hstr : ¬(g.getLast? = some 255 ∧ (SOI ++ w).head? = some 216) := by
    rintro ⟨-, hh⟩
    simp [SOI] at hh
  have hfirst : findSub [255, 216] ([255, 216] ++ w) = some 0 := by
    simp [findSub, begins]
  have h := findSub_pair_append_left 255 216 g (SOI ++ w)
    (by simpa [SOI] using hg) hstr
  simp only [SOI] at h ⊢
  rw [h, hfirst]
  simp

theorem findSub_EOI_skip_clean (g w : List Nat) (hg : findSub EOI g = none)
    (k : Nat) (hw : findSub EOI (SOI ++ w) = some k) :
    findSub EOI (g ++ (SOI ++ w)) = some (k + g.length) := by
  have hstr : ¬(g.getLast? = some 255 ∧ (SOI ++ w).head? = some 217) := by
    rintro ⟨-, hh⟩
    simp [SOI] at hh
  have h := findSub_pair_append_left 255 217 g (SOI ++ w)
    (by simpa [EOI] using hg) hstr
  simp only [EOI] at hw ⊢
  rw [h, hw]
  simp

theorem demuxStep_eq_of_eoi_none (buf chunk : List Nat)
    (h : findSub EOI (buf ++ chunk) = none) :
    demuxStep buf chunk = (buf ++ chunk, []) := by
  unfold demuxStep
  rw [h]
  cases findSub SOI (buf ++ chunk) <;> rfl

theorem demuxStep_eq_of_some_some (buf chunk : List Nat) (s e : Nat)
    (hs : findSub SOI (buf ++ chunk) = some s)
    (he : findSub EOI (buf ++ chunk) = some e) :
    demuxStep buf chunk =
      if s < e then
        ((buf ++ chunk).drop (e + 2), [((buf ++ chunk).drop s).take (e + 2 - s)])
      else (buf ++ chunk, []) := by
  unfold demuxStep
  rw [hs, he]

theorem findSub_eq_zero_of_begins (pat l : List Nat) (h : begins pat l = true)
    (hl : l ≠ []) : findSub pat l = some 0 := by
  cases l with
  | nil => exact absurd rfl hl
  | cons b t => simp [findSub, h]

theorem findSub_EOI_frame_append (body rest : List Nat)
    (hb : findSub EOI body = none) :
    findSub EOI (SOI ++ (body ++ (EOI ++ rest))) = some (body.length + 2) := by
  rw [findSub_EOI_SOI_cons, findSub_EOI_body_append body rest hb]
  rfl

theorem demuxStep_first_frame (buf chunk g mid rest : List Nat)
    (hsplit : buf ++ chunk = g ++ (SOI ++ (mid ++ (EOI ++ rest))))
    (hgS : findSub SOI g = none) (hgE : findSub EOI g = none)
    (hmid : findSub EOI mid = none) :
    demuxStep buf chunk = (rest, [frameOf mid]) := by
  have hS : findSub SOI (buf ++ chunk) = some g.length := by
    rw [hsplit]; exact findSub_SOI_frame_start g _ hgS
  have hEinner : findSub EOI (SOI ++ (mid ++ (EOI ++ rest))) = some (mid.length + 2) :=
    findSub_EOI_frame_append mid rest hmid
  have hE : findSub EOI (buf ++ chunk) = some (mid.length + 2 + g.length) := by
    rw [hsplit]; exact findSub_EOI_skip_clean g _ hgE _ hEinner
  rw [demuxStep_eq_of_some_some buf chunk _ _ hS hE, if_pos (by omega)]
  rw [hsplit]
  have hfl : (frameOf mid).length = mid.length + 4 := by
    simp only [frameOf, SOI, EOI, List.length_append, List.length_cons,
      List.length_nil]
    omega
  have hX1 : g ++ (SOI ++ (mid ++ (EOI ++ rest))) = (g ++ frameOf mid) ++ rest := by
    simp [frameOf, List.append_assoc]
  have hX2 : g ++ (SOI ++ (mid ++ (EOI ++ rest))) = g ++ (frameOf mid ++ rest) := by
    simp [frameOf, List.append_assoc]
  have hlen1 : (g ++ frameOf mid).length = mid.length + 2 + g.length + 2 := by
    simp only [List.length_append, hfl]
    omega
  simp only [Prod.mk.injEq]
  refine ⟨?_, ?_⟩
  · rw [hX1]
    exact List.drop_left' hlen1
  · rw [hX2, List.drop_left, List.take_left' (by rw [hfl]; omega)]

theorem eoi_none_of_markerFree (b : List Nat) (h : markerFree b = true) :
    findSub EOI b = none := by
  simp only [markerFree, Bool.and_eq_true, Option.isNone_iff_eq_none] at h
  exact h.2

theorem byteChunks_append (l r : List Nat) :
    byteChunks (l ++ r) = byteChunks l ++ byteChunks r := by
  simp [byteChunks]

theorem isEmpty_false_of_ne_nil (c : List Nat) (hc : c ≠ []) :
    c.isEmpty = false := by
  cases c with
  | nil => exact absurd rfl hc
  | cons x t => rfl

theorem findSub_EOI_frame_minus_last (body : List Nat)
    (hb : findSub EOI body = none) :
    findSub EOI (SOI ++ (body ++ [255])) = none := by
  rw [findSub_EOI_SOI_cons]
  have h255 : findSub [255, 217] [255] = none := by decide
  have hstr : ¬(body.getLast? = some 255 ∧ ([255] : List Nat).head? = some 217) := by
    rintro ⟨-, hh⟩
    simp at hh
  have h2 := findSub_pair_append_left 255 217 body [255]
    (by simpa [EOI] using hb) hstr
  simp only [EOI]
  rw [h2, h255]
  rfl

/-- Chunk sequences over which `cam_stream.gen` loses nothing:
`DeliversFrom p bodies chunks` says that with the bytes `p` already
buffered, the (nonempty) chunks deliver exactly the frames of `bodies`,
each chunk either extending the current partial frame without completing
it (`extend`) or completing the current frame, with anything beyond it
left pending for the following chunks (`complete`), and with an empty
buffer at the end (`nil`).  Every splitting of the frame stream in which
each chunk completes at most one frame belongs to this family — a chunk
completing none is an `extend` step, and a chunk completing exactly one
is a `complete` step whose leftover is a proper prefix of the next
frame — as do, in particular, byte-by-byte and one-frame-per-chunk
delivery. -/
inductive DeliversFrom : List Nat → List (List Nat) → List (List Nat) → Prop
  | nil : DeliversFrom [] [] []
  | extend (p c : List Nat) (b : List Nat) (bs cs : List (List Nat)) :
      c ≠ [] → (∃ q, (p ++ c) ++ q = frameOf b ∧ q ≠ []) →
      DeliversFrom (p ++ c) (b :: bs) cs →
      DeliversFrom p (b :: bs) (c :: cs)
  | complete (p c pNext : List Nat) (b : List Nat) (bs cs : List (List Nat)) :
      c ≠ [] → p ++ c = frameOf b ++ pNext →
      DeliversFrom pNext bs cs →
      DeliversFrom p (b :: bs) (c :: cs)

theorem demuxProc_delivers (p : List Nat) (bodies chunks : List (List Nat))
    (hd : DeliversFrom p bodies chunks)
    (hb : ∀ b ∈ bodies, findSub EOI b = none) :
    demuxProc p chunks = ([], bodies.map frameOf) := by
  revert hb
  induction hd with
  | nil =>
    intro _hb
    simp [demuxProc]
  | extend p c b bs cs hc hq hrec ih =>
    intro hb
    obtain ⟨q, hq1, hq2⟩ := hq
    obtain ⟨q2, x, hx⟩ : ∃ q2 x, q = q2 ++ [x] := by
      rcases List.eq_nil_or_concat q with h | ⟨L, y, h⟩
      · exact absurd h hq2
      · exact ⟨L, y, by simpa [List.concat_eq_append] using h⟩
    subst hx
    have hbody : findSub EOI b = none := hb b (by simp)
    have hf : frameOf b = (SOI ++ (b ++ [255])) ++ [217] := by
      simp only [frameOf, SOI, EOI, List.append_assoc, List.cons_append,
        List.nil_append]
    have h2 : ((p ++ c) ++ q2) ++ [x] = (SOI ++ (b ++ [255])) ++ [217] := by
      rw [← hf]
      simpa [List.append_assoc] using hq1
    have h3 := List.append_inj' h2 rfl
    have hnone : findSub EOI (p ++ c) = none := by
      apply findSub_none_of_append EOI (p ++ c) q2
      rw [h3.1]
      exact findSub_EOI_frame_minus_last b hbody
    have hstep : demuxStep p c = (p ++ c, []) :=
      demuxStep_eq_of_eoi_none _ _ hnone
    have hcne : c.isEmpty = false := isEmpty_false_of_ne_nil c hc
    simp only [demuxProc, hcne, Bool.false_eq_true, if_false, hstep]
    rw [ih hb]
    simp
  | complete p c pNext b bs cs hc heq hrec ih =>
    intro hb
    have hbody : findSub EOI b = none := hb b (by simp)
    have hstep : demuxStep p c = (pNext, [frameOf b]) := by
      apply demuxStep_first_frame p c [] b pNext
      · simpa [frameOf, List.append_assoc] using heq
      · decide
      · decide
      · exact hbody
    have hcne : c.isEmpty = false := isEmpty_false_of_ne_nil c hc
    simp only [demuxProc, hcne, Bool.false_eq_true, if_false, hstep]
    rw [ih (fun y hy => hb y (by simp [hy]))]
    simp

theorem deliversFrom_bytes_frame (b : List Nat) (bs cs : List (List Nat))
    (hrest : DeliversFrom [] bs cs) :
    ∀ suffix p : List Nat, p ++ suffix = frameOf b → suffix ≠ [] →
      DeliversFrom p (b :: bs) (byteChunks suffix ++ cs) := by
  intro suffix
  induction suffix with
  | nil =>
    intro p hp hne
    exact absurd rfl hne
  | cons x t ih =>
    intro p hp hne
    cases t with
    | nil =>
      have hch : byteChunks [x] ++ cs = [x] :: cs := by simp [byteChunks]
      rw [hch]
      apply DeliversFrom.complete p [x] [] b bs cs
      · simp
      · simpa using hp
      · exact hrest
    | cons y t2 =>
      rw [show byteChunks (x :: y :: t2) = [x] :: byteChunks (y :: t2) from rfl,
        List.cons_append]
      apply DeliversFrom.extend p [x] b bs (byteChunks (y :: t2) ++ cs)
      · simp
      · exact ⟨y :: t2, by simpa [List.append_assoc] using hp, by simp⟩
      · exact ih (p ++ [x]) (by simpa [List.append_assoc] using hp) (by simp)

theorem deliversFrom_byteChunks (bodies : List (List Nat)) :
    DeliversFrom [] bodies (byteChunks ((bodies.map frameOf).flatten)) := by
  induction bodies with
  | nil =>
    simp only [List.map_nil, List.flatten_nil, byteChunks]
    exact DeliversFrom.nil
  | cons b bs ih =>
    rw [List.map_cons, List.flatten_cons, byteChunks_append]
    exact deliversFrom_bytes_frame b bs _ ih (frameOf b) [] (by simp)
      (by simp [frameOf, SOI])

theorem deliversFrom_frame_chunks (bodies : List (List Nat)) :
    DeliversFrom [] bodies (bodies.map frameOf) := by
  induction bodies with
  | nil => exact DeliversFrom.nil
  | cons b bs ih =>
    apply DeliversFrom.complete [] (frameOf b) [] b bs (bs.map frameOf)
    · simp [frameOf, SOI]
    · simp
    · exact ih

/-- The shared timelapse state: `timelapse_thread is not None and
timelapse_thread.is_alive()` collapsed to `threadAlive`, and the module
global `timelapse_stop` as `stopFlag` (lines 315-316). -/
structure TState where
  threadAlive : Bool
  stopFlag : Bool
  deriving DecidableEq, Repr

/-- Outcome of the `timelapse_start` handler: either the 400 "Already
running" response or the success response together with the `(interval,
max_shots)` arguments handed to the spawned `timelapse_worker` thread. -/
inductive StartResult where
  | alreadyRunning
  | started (interval : Int) (max_shots : Int)
  deriving DecidableEq, Repr

/-- `max(10, min(600, interval))` from line 346. -/
def clampInterval (i : Int) : Int := max 10 (min 600 i)

/-- The `timelapse_start` handler (lines 340-352), acting on the shared
state: reject when the worker thread is alive; otherwise clamp the
interval, compute `max_shots = int(duration / interval) if duration > 0
else 0`, clear `timelapse_stop`, and start the worker thread.  `interval`
and `duration` are the JSON request fields (integers; the handler defaults
are `60` and `0`).  For `duration > 0` and the clamped positive interval,
Python's `int(duration / interval)` is the floor quotient, which is `Int`
division on nonnegative operands. -/
def timelapse_start (st : TState) (interval duration : Int) :
    TState × StartResult :=
  if st.threadAlive then (st, .alreadyRunning)
  else
    (⟨true, false⟩,
      .started (clampInterval interval)
        (if 0 < duration then duration / clampInterval interval else 0))

/-- The `timelapse_stop_route` handler (lines 354-358): set
`timelapse_stop = True` and return `{'success': True}` unconditionally. -/
def timelapse_stop_route (st : TState) : TState × Bool :=
  ({ st with stopFlag := true }, true)

/-- Read index after the inter-shot wait loop
`for _ in range(int(interval)): if timelapse_stop: break; time.sleep(1)`
(lines 325-327), where the `k`-th read of `timelapse_stop` returns
`stop k`: each slot reads the flag once, and a `True` read breaks out. -/
def waitReads (stop : Nat → Bool) : Nat → Nat → Nat
  | r, 0 => r
  | r, n + 1 => if stop r then r + 1 else waitReads stop (r + 1) n

/-- Fuel-bounded run of `timelapse_worker` (lines 318-327), with the
successive reads of the shared `timelapse_stop` flag drawn from the oracle
`stop`: the guard `while not timelapse_stop and (max_shots == 0 or count <
max_shots)` reads the flag once, then the body performs one capture attempt
(`run_cmd` result is discarded by the code), increments `count`, and runs
the inter-shot wait.  Returns `some count` when the loop exits within the
given fuel (the number of capture attempts performed), `none` otherwise. -/
def workerFuel (stop : Nat → Bool) (interval max_shots : Nat) :
    Nat → Nat → Nat → Option Nat
  | 0, _, _ => none
  | f + 1, count, r =>
    if stop r then some count
    else if max_shots = 0 ∨ count < max_shots then
      workerFuel stop interval max_shots f (count + 1)
        (waitReads stop (r + 1) interval)
    else some count

/-- Wall-clock model of the same inter-shot wait (lines 325-327): starting
at second `t0`, each of the `n` slots checks `timelapse_stop` (as the trace
`flag` of its value over time) and then sleeps one second; a `true` check
ends the wait.  Returns the wall-clock time at which the wait ends. -/
def waitLoop (flag : Nat → Bool) : Nat → Nat → Nat
  | t0, 0 => t0
  | t0, n + 1 => if flag t0 then t0 else waitLoop flag (t0 + 1) n

/-- State for the interleaving analysis of two concurrent `timelapse_start`
requests: the alive flag plus the number of worker loops actually
running. -/
structure RaceState where
  threadAlive : Bool
  liveWorkers : Nat
  deriving DecidableEq, Repr

/-- First half of the `timelapse_start` handler (line 343): the read of
`timelapse_thread and timelapse_thread.is_alive()`.  Flask runs handlers
in independent threads (`threaded=True`, line 500) and no lock is taken,
so another request may interleave between this read and the commit. -/
def startCheck (s : RaceState) : Bool := s.threadAlive

/-- Second half of the `timelapse_start` handler (lines 343-352), executed
with the value the check observed: reject if the check saw an alive
thread, otherwise create and start a new worker thread. -/
def startCommit (s : RaceState) (sawAlive : Bool) : RaceState × Bool :=
  if sawAlive then (s, false)
  else ({ threadAlive := true, liveWorkers := s.liveWorkers + 1 }, true)

/-- A capture artifact in the `timelapse` directory: an abstract name and
its `st_mtime`. -/
structure ImgFile where
  name : Nat
  mtime : Nat
  deriving DecidableEq, Repr

/-- Comparison used by `sorted(..., key=lambda x: x.stat().st_mtime,
reverse=True)` (line 333): newer (larger mtime) first. -/
def mtimeGe (a b : ImgFile) : Prop := b.mtime ≤ a.mtime

instance : DecidableRel mtimeGe :=
  fun a b => inferInstanceAs (Decidable (b.mtime ≤ a.mtime))

instance : IsTotal ImgFile mtimeGe := ⟨fun a b => Nat.le_total b.mtime a.mtime⟩

instance : IsTrans ImgFile mtimeGe := ⟨fun _ _ _ h1 h2 => Nat.le_trans h2 h1⟩

/-- The `timelapse_status` handler (lines 329-338) over the directory
listing `dir`: it only reads the shared state, sorts the artifacts by
modification time descending, and returns `(running, count, images)` with
`count = len(images)` (all files) and `images` truncated to the first 20
(`images[:20]`). -/
def timelapse_status (st : TState) (dir : List ImgFile) :
    TState × Bool × Nat × List ImgFile :=
  (st, st.threadAlive,
    (List.insertionSort mtimeGe dir).length,
    (List.insertionSort mtimeGe dir).take 20)

/-- One result of `p.stdout.read(4096)` inside `cam_stream.gen`: a chunk of
bytes (empty at end of stream), or a read that raises an exception. -/
inductive SrcItem where
  | chunk (c : List Nat)
  | errorRead
  deriving DecidableEq, Repr

/-- Observable events of one run of `cam_stream.gen` (lines 123-137):
reads from the child process, frames delivered to the consumer, and the
`p.terminate()` call of the `finally` clause. -/
inductive GEvent where
  | readChunk
  | yieldFrame (f : List Nat)
  | terminateProc
  deriving DecidableEq, Repr

/-- Events produced by the `try` body of `cam_stream.gen` (lines 128-136).
`src` is the sequence of read results; `demand` is the number of frames
the consumer accepts before disconnecting (`none` = never disconnects).
An empty read breaks the loop; a raising read ends the body with the
exception propagating; a yield with the consumer gone ends the body with
`GeneratorExit` (raised at the suspended `yield` by CPython) — in each of
these cases the body produces no further events. -/
def genBody : List Nat → List SrcItem → Option Nat → List GEvent
  | _, [], _ => [.readChunk]
  | _, .errorRead :: _, _ => [.readChunk]
  | buf, .chunk c :: rest, demand =>
    if c.isEmpty then [.readChunk]
    else
      .readChunk ::
        (match (demuxStep buf c).2, demand with
         | [], _ => genBody (demuxStep buf c).1 rest demand
         | _ :: _, some 0 => []
         | f :: _, some (d + 1) =>
           .yieldFrame f :: genBody (demuxStep buf c).1 rest (some d)
         | f :: _, none => .yieldFrame f :: genBody (demuxStep buf c).1 rest none)

/-- A full run of `cam_stream.gen`: the `try` body followed by the
`finally: p.terminate()` of line 137, which CPython runs whenever the
generator exits — on normal completion, on an exception, and on
`GeneratorExit` when the consumer disconnects. -/
def genRun (src : List SrcItem) (demand : Option Nat) : List GEvent :=
  genBody [] src demand ++ [.terminateProc]

theorem genBody_no_terminate (src : List SrcItem) :
    ∀ buf demand, GEvent.terminateProc ∉ genBody buf src demand := by
  induction src with
  | nil =>
    intro buf demand
    simp [genBody]
  | cons item rest ih =>
    intro buf demand
    cases item with
    | errorRead => simp [genBody]
    | chunk c =>
      by_cases hc : c.isEmpty
      · simp [genBody, hc]
      · rcases h2 : (demuxStep buf c).2 with - | ⟨f, fs⟩
        · simp [genBody, hc, h2, ih]
        · cases demand with
          | none => simp [genBody, hc, h2, ih]
          | some d =>
            cases d with
            | zero => simp [genBody, hc, h2]
            | succ e => simp [genBody, hc, h2, ih]

/-- C1: the `timelapse_start` handler checks `timelapse_thread.is_alive()`
and spawns the worker without any lock while Flask serves requests on
multiple threads, so two concurrent start requests can interleave
check-check-commit-commit: both checks observe the idle state, both
commits succeed, and two worker loops end up running at once — the
single-active-job invariant the claim states is not enforced by the
code. -/
theorem C1_race :
    startCheck ⟨false, 0⟩ = false ∧
    (startCommit ⟨false, 0⟩ (startCheck ⟨false, 0⟩)).2 = true ∧
    (startCommit (startCommit ⟨false, 0⟩ (startCheck ⟨false, 0⟩)).1
        (startCheck ⟨false, 0⟩)).2 = true ∧
    (startCommit (startCommit ⟨false, 0⟩ (startCheck ⟨false, 0⟩)).1
        (startCheck ⟨false, 0⟩)).1.liveWorkers = 2 := by
  decide

/-- C2 (counterexample): the stream consisting of two well-formed
back-to-back JPEG frames delivered as one single chunk makes the demuxer
emit only the first frame — the loop extracts at most one frame per
`read`, and the second (complete, buffered) frame is dropped when the next
read reports end of stream.  This refutes the claim for the "single chunk
containing everything" splitting. -/
theorem C2_counterexample :
    markerFree [] = true ∧
    frameOf [] ++ frameOf [] = [255, 216, 255, 217, 255, 216, 255, 217] ∧
    demuxRun [frameOf [] ++ frameOf []] = [frameOf []] ∧
    demuxRun [frameOf [] ++ frameOf []] ≠ [frameOf [], frameOf []] := by
  decide

/-- C2 (amended): the demuxer emits at most one frame per received chunk
and drops complete frames still buffered when the source ends.  For every
splitting of a stream of `N` well-formed back-to-back JPEG frames into
chunks in which each chunk completes at most one frame — the `DeliversFrom`
chunkings: each chunk either extends the current partial frame without
completing it or completes the current frame with the overshoot left for
later chunks, and nothing remains buffered at the end — the demuxer emits
exactly `N` frames, each byte-identical to the original frame, in the
original order.  Byte-by-byte delivery and one-frame-per-chunk delivery
are proved members of the family.  (The unrestricted claim fails for a
single chunk containing several frames; see the counterexample.) -/
theorem C2_amended_thm (bodies : List (List Nat))
    (hb : ∀ b ∈ bodies, markerFree b = true) :
    (∀ chunks, DeliversFrom [] bodies chunks →
        demuxRun chunks = bodies.map frameOf) ∧
    DeliversFrom [] bodies (byteChunks ((bodies.map frameOf).flatten)) ∧
    DeliversFrom [] bodies (bodies.map frameOf) := by
  have hb2 : ∀ b ∈ bodies, findSub EOI b = none :=
    fun b h => eoi_none_of_markerFree b (hb b h)
  refine ⟨?_, deliversFrom_byteChunks bodies, deliversFrom_frame_chunks bodies⟩
  intro chunks hd
  unfold demuxRun
  rw [demuxProc_delivers [] bodies chunks hd hb2]

/-- C2 (witness): the amended theorem evaluated on the two-frame stream
with bodies `[0]` and `[]`, for the byte-by-byte and the one-frame-per-
chunk members of the chunking family. -/
theorem C2_witness :
    demuxRun (byteChunks ((([[0], []] : List (List Nat)).map frameOf).flatten)) =
      ([[0], []] : List (List Nat)).map frameOf ∧
    demuxRun (([[0], []] : List (List Nat)).map frameOf) =
      ([[0], []] : List (List Nat)).map frameOf := by
  obtain ⟨hgen, hbytes, hframes⟩ := C2_amended_thm [[0], []] (by decide)
  exact ⟨hgen _ hbytes, hgen _ hframes⟩

/-- C3 (counterexample): a buffer whose first `0xFFD9` precedes its first
`0xFFD8`.  The first start marker is at index 2 and an end marker follows
it (index 1 of the suffix after the marker), so the claim says the slice
through that end marker is emitted and the garbage before the start marker
is discarded; but the code compares the first `0xFFD9` of the whole buffer
(index 0) with the start index and emits nothing, retaining every byte. -/
theorem C3_counterexample :
    findSub SOI [255, 217, 255, 216, 0, 255, 217] = some 2 ∧
    findSub EOI (([255, 217, 255, 216, 0, 255, 217] : List Nat).drop 4) = some 1 ∧
    demuxStep [] [255, 217, 255, 216, 0, 255, 217] =
      ([255, 217, 255, 216, 0, 255, 217], []) := by
  decide

/-- C3 (amended): the demuxer locates the first `0xFFD8` and the first
`0xFFD9` of the whole buffer (not the first `0xFFD9` after the start
marker).  When the buffer decomposes as marker-free garbage, a frame whose
body contains no end marker, and a remainder, the step emits exactly that
frame and retains exactly the remainder (discarding the garbage).  When
the buffer contains no end marker at all, or its first end marker does not
lie strictly after its first start marker, nothing is emitted and the
whole buffer — including any bytes before the start marker — is
retained. -/
theorem C3_amended_thm :
    (∀ buf chunk g mid rest : List Nat,
        buf ++ chunk = g ++ (SOI ++ (mid ++ (EOI ++ rest))) →
        findSub SOI g = none → findSub EOI g = none → findSub EOI mid = none →
        demuxStep buf chunk = (rest, [frameOf mid])) ∧
    (∀ buf chunk : List Nat, findSub EOI (buf ++ chunk) = none →
        demuxStep buf chunk = (buf ++ chunk, [])) ∧
    (∀ buf chunk : List Nat, ∀ s e : Nat,
        findSub SOI (buf ++ chunk) = some s →
        findSub EOI (buf ++ chunk) = some e → e ≤ s →
        demuxStep buf chunk = (buf ++ chunk, [])) := by
  refine ⟨demuxStep_first_frame, demuxStep_eq_of_eoi_none, ?_⟩
  intro buf chunk s e hs he hle
  rw [demuxStep_eq_of_some_some buf chunk s e hs he, if_neg (by omega)]

/-- C3 (witness): the amended theorem evaluated on a buffer with garbage
prefix `[9]`, frame body `[7]` and remainder `[4]`, and on a buffer with
no end marker. -/
theorem C3_witness :
    demuxStep [] [9, 255, 216, 7, 255, 217, 4] = ([4], [frameOf [7]]) ∧
    demuxStep [] [1, 2, 3] = ([1, 2, 3], []) :=
  ⟨C3_amended_thm.1 [] [9, 255, 216, 7, 255, 217, 4] [9] [7] [4]
      (by decide) (by decide) (by decide) (by decide),
    C3_amended_thm.2.1 [] [1, 2, 3] (by decide)⟩

/-- C4: on every run of `cam_stream.gen` — whatever the sequence of reads
(chunks, end of stream, or a raising read) and whatever point the consumer
disconnects at — the event trace ends with exactly one `p.terminate()`
call: the `finally` clause runs on normal completion, on errors, and on
`GeneratorExit` from an abrupt consumer disconnect, so the encoder process
handle is released on every exit path. -/
theorem C4_thm (src : List SrcItem) (demand : Option Nat) :
    (genRun src demand).getLast? = some GEvent.terminateProc ∧
    (genRun src demand).count GEvent.terminateProc = 1 := by
  constructor
  · unfold genRun
    exact List.getLast?_concat _
  · unfold genRun
    rw [List.count_append]
    have h0 : (genBody [] src demand).count GEvent.terminateProc = 0 :=
      List.count_eq_zero.mpr (genBody_no_terminate src [] demand)
    rw [h0]
    decide

/-- C5: a start request that observes the worker thread alive is rejected
with the "Already running" response, the shared state is returned
untouched, and no worker parameters are produced — no new job is
created. -/
theorem C5_thm (st : TState) (i d : Int) (h : st.threadAlive = true) :
    timelapse_start st i d = (st, StartResult.alreadyRunning) := by
  simp [timelapse_start, h]

/-- C5 (witness): the rejection theorem evaluated on a running state. -/
theorem C5_witness :
    timelapse_start ⟨true, false⟩ 30 120 =
      (⟨true, false⟩, StartResult.alreadyRunning) :=
  C5_thm ⟨true, false⟩ 30 120 rfl

/-- C6: every accepted start clamps the interval into `[10, 600]` (never
rejecting it), computes `max_shots = 0` for `duration ≤ 0` and
`max_shots = duration / clampedInterval` (floor) for `duration > 0`, and
transitions to running with the stop flag cleared; in particular
`start(interval := 10, duration := 35)` hands the worker `max_shots = 3`,
and the worker loop with no stop request performs exactly 3 capture
attempts and then exits on its own. -/
theorem C6_thm :
    (∀ (st : TState) (i d : Int), st.threadAlive = false →
        timelapse_start st i d =
          (⟨true, false⟩,
            StartResult.started (clampInterval i)
              (if 0 < d then d / clampInterval i else 0)) ∧
        10 ≤ clampInterval i ∧ clampInterval i ≤ 600) ∧
    timelapse_start ⟨false, false⟩ 10 35 =
      (⟨true, false⟩, StartResult.started 10 3) ∧
    workerFuel (fun _ => false) 10 3 4 0 0 = some 3 := by
  refine ⟨?_, by decide, by decide⟩
  intro st i d h
  refine ⟨by simp [timelapse_start, h], ?_, ?_⟩
  · exact le_max_left _ _
  · exact max_le (by norm_num) (min_le_left _ _)

/-- C6 (witness): the start contract evaluated on an idle state with an
out-of-range interval and a negative duration. -/
theorem C6_witness :
    timelapse_start ⟨false, true⟩ 1000 (-7) =
      (⟨true, false⟩,
        StartResult.started (clampInterval 1000)
          (if 0 < (-7 : Int) then (-7 : Int) / clampInterval 1000 else 0)) ∧
    10 ≤ clampInterval 1000 ∧ clampInterval 1000 ≤ 600 :=
  C6_thm.1 ⟨false, true⟩ 1000 (-7) rfl

/-- C7: the inter-shot wait checks the stop flag once per one-second slot,
so once the flag is set (at second `ts`, staying set) the wait returns no
later than the next check — by `max t0 ts` — and in any case no later than
`t0 + n` (it never waits beyond the configured interval); and whenever a
guard read of the worker loop returns `true`, the loop exits immediately
with its current count. -/
theorem C7_thm :
    (∀ (flag : Nat → Bool) (t0 ts n : Nat),
        (∀ s t, s ≤ t → flag s = true → flag t = true) → flag ts = true →
        waitLoop flag t0 n ≤ max t0 ts ∧ waitLoop flag t0 n ≤ t0 + n) ∧
    (∀ (stop : Nat → Bool) (iv m f c r : Nat), stop r = true →
        workerFuel stop iv m (f + 1) c r = some c) := by
  constructor
  · intro flag t0 ts n hmono hts
    constructor
    · induction n generalizing t0 with
      | zero => simp [waitLoop]
      | succ n ih =>
        by_cases hf : flag t0 = true
        · simp [waitLoop, hf]
        · have hlt : t0 < ts := by
            by_contra hge
            push_neg at hge
            exact hf (hmono ts t0 hge hts)
          have hrec := ih (t0 + 1)
          simp only [waitLoop, hf, Bool.false_eq_true, if_false]
          omega
    · induction n generalizing t0 with
      | zero => simp [waitLoop]
      | succ n ih =>
        by_cases hf : flag t0 = true
        · simp [waitLoop, hf]
        · have hrec := ih (t0 + 1)
          simp only [waitLoop, hf, Bool.false_eq_true, if_false]
          omega
  · intro stop iv m f c r h
    simp [workerFuel, h]

/-- C7 (witness): the wait-loop bound evaluated for a flag set from second
2 on, with a 10-second interval starting at second 0, and the guard exit
evaluated on a set flag. -/
theorem C7_witness :
    (waitLoop (fun t => decide (2 ≤ t)) 0 10 ≤ max 0 2 ∧
      waitLoop (fun t => decide (2 ≤ t)) 0 10 ≤ 0 + 10) ∧
    workerFuel (fun _ => true) 60 0 1 5 0 = some 5 :=
  ⟨C7_thm.1 (fun t => decide (2 ≤ t)) 0 2 10
      (fun s t hst hs => by
        simp only [decide_eq_true_eq] at hs ⊢
        omega)
      (by decide),
    C7_thm.2 (fun _ => true) 60 0 0 5 0 rfl⟩

/-- C8 (counterexample): `timelapse_status` reports `count =
len(TIMELAPSE_DIR.glob('*.jpg'))`, not the worker's shots-taken counter: a
worker run that performed exactly one capture attempt coexists with a
directory holding two artifacts (for example one stale file from an
earlier session), and status reports 2, not 1. -/
theorem C8_counterexample :
    workerFuel (fun _ => false) 10 1 2 0 0 = some 1 ∧
    (timelapse_status ⟨false, false⟩ [⟨0, 0⟩, ⟨1, 1⟩]).2.2.1 = 2 ∧
    (2 : Nat) ≠ 1 := by
  decide

/-- C8 (amended): `timelapse_status` is read-only on the shared state and
returns the running flag, the total number of artifact files in the
output directory (which coincides with shots taken only when every
attempt produced exactly one file and the directory held nothing else),
and at most 20 artifacts sorted by modification time descending, all drawn
from the directory. -/
theorem C8_amended_thm (st : TState) (dir : List ImgFile) :
    (timelapse_status st dir).1 = st ∧
    (timelapse_status st dir).2.1 = st.threadAlive ∧
    (timelapse_status st dir).2.2.1 = dir.length ∧
    (timelapse_status st dir).2.2.2.length ≤ 20 ∧
    List.Sorted mtimeGe (timelapse_status st dir).2.2.2 ∧
    ∀ x ∈ (timelapse_status st dir).2.2.2, x ∈ dir := by
  refine ⟨rfl, rfl, ?_, ?_, ?_, ?_⟩
  · exact (List.perm_insertionSort mtimeGe dir).length_eq
  · exact List.length_take_le 20 _
  · exact List.Pairwise.sublist (List.take_sublist 20 _)
      (List.sorted_insertionSort mtimeGe dir)
  · intro x hx
    exact (List.perm_insertionSort mtimeGe dir).mem_iff.mp
      (List.mem_of_mem_take hx)

/-- C9 (counterexample): calling stop while idle does change the stored
state — the cancellation flag `timelapse_stop` flips from `False` to
`True` — so "leaves the worker's state unchanged" is false at the level of
the module globals. -/
theorem C9_counterexample :
    timelapse_stop_route ⟨false, false⟩ = (⟨false, true⟩, true) ∧
    (⟨false, true⟩ : TState) ≠ ⟨false, false⟩ := by
  decide

/-- C9 (amended): stop always returns success; when idle it leaves the
running status unchanged and only sets the cancellation flag, and since
every accepted start clears that flag before spawning, a subsequent start
behaves exactly as it would have without the stop — an observational
no-op. -/
theorem C9_amended_thm (st : TState) :
    (timelapse_stop_route st).2 = true ∧
    (timelapse_stop_route st).1.threadAlive = st.threadAlive ∧
    (timelapse_stop_route st).1.stopFlag = true ∧
    (st.threadAlive = false →
      ∀ i d : Int, timelapse_start (timelapse_stop_route st).1 i d =
        timelapse_start st i d) := by
  refine ⟨rfl, rfl, rfl, ?_⟩
  intro h i d
  simp [timelapse_stop_route, timelapse_start, h]

/-- C9 (witness): the amended theorem evaluated on the idle state with a
clear flag. -/
theorem C9_witness :
    (timelapse_stop_route ⟨false, false⟩).2 = true ∧
    timelapse_start (timelapse_stop_route ⟨false, false⟩).1 60 0 =
      timelapse_start ⟨false, false⟩ 60 0 :=
  ⟨(C9_amended_thm ⟨false, false⟩).1,
    (C9_amended_thm ⟨false, false⟩).2.2.2 rfl 60 0⟩

/-- C10: a negative duration fails the `duration > 0` test, so an accepted
start treats it exactly like duration 0: `max_shots = 0`, which the worker
guard `max_shots == 0 or count < max_shots` interprets as unbounded — the
loop never exits on its own (for no amount of fuel), rather than
performing zero captures and stopping. -/
theorem C10_thm (st : TState) (i d : Int) (hidle : st.threadAlive = false)
    (hneg : d < 0) :
    timelapse_start st i d = timelapse_start st i 0 ∧
    timelapse_start st i d =
      (⟨true, false⟩, StartResult.started (clampInterval i) 0) ∧
    ∀ iv f c r : Nat, workerFuel (fun _ => false) iv 0 f c r = none := by
  have hd : ¬(0 < d) := by omega
  refine ⟨?_, ?_, ?_⟩
  · simp [timelapse_start, hidle, hd]
  · simp [timelapse_start, hidle, hd]
  · intro iv f c r
    induction f generalizing c r with
    | zero => rfl
    | succ f ih => simp [workerFuel, ih]

/-- C10 (witness): the negative-duration contract evaluated at
`duration = -1` from the idle state. -/
theorem C10_witness :
    timelapse_start ⟨false, false⟩ 60 (-1) = timelapse_start ⟨false, false⟩ 60 0 ∧
    timelapse_start ⟨false, false⟩ 60 (-1) =
      (⟨true, false⟩, StartResult.started (clampInterval 60) 0) ∧
    workerFuel (fun _ => false) 60 0 5 0 0 = none := by
  obtain ⟨h1, h2, h3⟩ := C10_thm ⟨false, false⟩ 60 (-1) rfl (by decide)
  exact ⟨h1, h2, h3 60 5 0 0⟩
